import Mathlib

set_option maxRecDepth 40000

/-!
Verification development for the ragbase adaptive query-processing pipeline.

The definitions below are a shallow embedding of the Python source in
`ragbase/optimizers.py` and `ragbase/chain.py`.  Strings are modelled as
`List Char`, Python floats as exact rationals (`ℚ`), and the regular
expressions used by the source are modelled by recursive functions
implementing exactly the substitution each regex performs.
-/

namespace Ragbase

/-- Whitespace test modelling the character class matched by the Python
regex class and by both Python string methods used by the source
(the ASCII whitespace characters). -/
def isWsChar (c : Char) : Bool :=
  c = ' ' || c = '\t' || c = '\n' || c = '\r' || c = '\x0b' || c = '\x0c'

/-- ASCII lower-casing of one character, modelling Python lower() on the
character sets that occur in the embedded program. -/
def toLowerChar (c : Char) : Char :=
  if 'A' ≤ c ∧ c ≤ 'Z' then Char.ofNat (c.toNat + 32) else c

/-- Lower-casing of a string, modelling the source's query.lower(). -/
def lowerStr (s : List Char) : List Char := s.map toLowerChar

/-! ## TokenOptimizationPipeline.optimize_prompt

The source applies, in order:
1. a substitution collapsing every maximal whitespace run to one space,
2. strip(),
3. a substitution turning every run of two or more dots into three dots,
4. a substitution turning every run of two or more bangs into one bang,
5. a substitution turning every run of two or more question marks into one.
-/

/-- Collapse every maximal whitespace run to a single space
(the first substitution of optimize_prompt).  Walking the string two
characters at a time: of each whitespace run only the last character
survives and it is rewritten to a space — which is exactly what the
substitution of every maximal whitespace run by one space produces. -/
def collapseWs : List Char → List Char
  | [] => []
  | [c] => if isWsChar c then [' '] else [c]
  | c :: d :: r =>
    if isWsChar c && isWsChar d then collapseWs (d :: r)
    else (if isWsChar c then ' ' else c) :: collapseWs (d :: r)

/-- Remove the trailing whitespace run (the right half of strip()). -/
def rstripWs (s : List Char) : List Char :=
  ((s.reverse).dropWhile isWsChar).reverse

/-- Python strip(): remove the leading and trailing whitespace runs. -/
def pyStrip (s : List Char) : List Char :=
  rstripWs (s.dropWhile isWsChar)

/-!
The remaining three substitutions of optimize_prompt each rewrite every
maximal run of one fixed character: a run of two or more dots becomes
three dots, a run of two or more bangs becomes one bang, a run of two or
more question marks becomes one question mark.  They are embedded through
an explicit decomposition of the string into its maximal runs.
-/

/-- Decompose a string into its maximal runs: `toRuns s` lists, in order,
each maximal run of equal characters as (character, length). -/
def toRuns : List Char → List (Char × Nat)
  | [] => []
  | c :: cs =>
    match toRuns cs with
    | [] => [(c, 1)]
    | (d, n) :: rest => if c = d then (d, n + 1) :: rest else (c, 1) :: (d, n) :: rest

/-- Rebuild a string from a run decomposition. -/
def fromRuns : List (Char × Nat) → List Char
  | [] => []
  | q :: r => List.replicate q.2 q.1 ++ fromRuns r

/-- Apply a rewriting of maximal runs to a string. -/
def subRuns (f : Char × Nat → Char × Nat) (s : List Char) : List Char :=
  fromRuns ((toRuns s).map f)

/-- Run rewriting of the substitution turning every run of two or more
dots into exactly three dots (a single dot is left alone). -/
def fDot (q : Char × Nat) : Char × Nat :=
  if q.1 = '.' ∧ 2 ≤ q.2 then ('.', 3) else q

/-- Run rewriting of the substitution turning every run of two or more
copies of `a` into a single `a` (a run of length one is already a single
`a`, so every maximal `a`-run ends up as one `a`). -/
def fRep (a : Char) (q : Char × Nat) : Char × Nat :=
  if q.1 = a then (a, 1) else q

/-- The function `TokenOptimizationPipeline.optimize_prompt` of ragbase/optimizers.py:
whitespace-run collapsing, strip, then the dot-, bang- and question-mark-
run substitutions, in the source's order. -/
def optimize_prompt (s : List Char) : List Char :=
  subRuns (fRep '?')
    (subRuns (fRep '!')
      (subRuns fDot
        (pyStrip (collapseWs s))))

/-! ### Properties of the run decomposition -/

/-- Canonical run lists: every run has positive length and adjacent runs
carry distinct characters. -/
def RunsOk : List (Char × Nat) → Bool
  | [] => true
  | [q] => 1 ≤ q.2
  | p :: q :: r => (1 ≤ p.2 && !(p.1 = q.1 : Bool)) && RunsOk (q :: r)

/-! ### Whitespace normal form -/

/-- Every whitespace character is a plain space. -/
def allWsSpace (s : List Char) : Bool := s.all fun c => !isWsChar c || c == ' '

/-- No two adjacent whitespace characters. -/
def noAdjWs : List Char → Bool
  | [] => true
  | [_] => true
  | c :: d :: r => !(isWsChar c && isWsChar d) && noAdjWs (d :: r)

/-- The first character, when present, is not whitespace. -/
def headNotWs (s : List Char) : Bool :=
  match s.head? with
  | none => true
  | some c => !isWsChar c

/-- The last character, when present, is not whitespace. -/
def lastNotWs (s : List Char) : Bool := headNotWs s.reverse

/-- No two adjacent runs both carry whitespace characters. -/
def adjWsOkR : List (Char × Nat) → Bool
  | [] => true
  | [_] => true
  | p :: q :: r => !(isWsChar p.1 && isWsChar q.1) && adjWsOkR (q :: r)

/-! ### The output of optimize_prompt is in normal form -/

/-- Composite of the three run rewritings, in application order. -/
def fAll (p : Char × Nat) : Char × Nat := fRep '?' (fRep '!' (fDot p))

/-! ## TokenOptimizationPipeline.truncate_text

Python slicing is modelled faithfully over `Int` indices, including the
behaviour of negative indices (and of `-0`, which Python reads as `0`). -/

/-- Resolve one Python slice index against a list of length `n`. -/
def pyIdx (n : Nat) (i : Int) : Nat :=
  if i < 0 then (i + n).toNat else min i.toNat n

/-- Python `s[a:b]` on a list of characters. -/
def pySlice (s : List Char) (a b : Int) : List Char :=
  (s.take (pyIdx s.length b)).drop (pyIdx s.length a)

/-- The function `TokenOptimizationPipeline.truncate_text` of ragbase/optimizers.py. -/
def truncate_text (text : List Char) (maxLength : Nat := 8000) : List Char :=
  if text.length ≤ maxLength then text
  else
    let introLength := maxLength / 3
    let conclusionLength := maxLength / 3
    let middleLength := maxLength - introLength - conclusionLength
    let intro := pySlice text 0 introLength
    let conclusion := pySlice text (-(conclusionLength : Int)) text.length
    intro ++ '.' :: '.' :: '.' ::
      pySlice text (text.length - middleLength - conclusionLength)
        (-(conclusionLength : Int))
      ++ conclusion

/-! ## DynamicComplexityRouter.assess_complexity

Python floats are modelled as exact rationals.  The `in` operator of
Python (substring containment) is modelled by `isSubB`. -/

/-- Boolean test: `t` is an initial segment of the second argument. -/
def isPrefB : List Char → List Char → Bool
  | [], _ => true
  | _ :: _, [] => false
  | a :: as, b :: bs => a == b && isPrefB as bs

/-- Python's substring containment `t in s`. -/
def isSubB (t : List Char) : List Char → Bool
  | [] => t.isEmpty
  | c :: cs => isPrefB t (c :: cs) || isSubB t cs

/-- The table `DynamicComplexityRouter.COMPLEXITY_INDICATORS`, in source order,
including the duplicated entry "implications". -/
def COMPLEXITY_INDICATORS : List (List Char) :=
  ["analyze", "synthesize", "evaluate", "compare", "contrast",
   "implications", "consequences", "relationship between",
   "multi-step", "complex", "reasoning", "why", "how does",
   "explain in detail", "elaborate", "what would happen if",
   "critically", "argument", "evidence", "theory", "hypothesis",
   "infer", "deduce", "prove", "concept", "discuss", "explore",
   "technical", "scientific", "mathematical", "algorithm",
   "architecture", "framework", "implementation", "methodology",
   "mechanism", "approach", "statistics", "correlation",
   "philosophical", "ethical", "moral", "metaphysical", "epistemological",
   "consciousness", "existence", "meaning", "purpose", "free will",
   "determinism", "relativism", "utilitarianism", "deontological",
   "virtue ethics", "social contract", "rights", "justice",
   "dialectic", "ontology", "phenomenology", "hermeneutics",
   "considerations", "implications", "paradox", "dilemma",
   "dimensions", "aspects", "autonomy", "autonomous", "relate",
   "connection", "relationship", "impact",
   "domain knowledge", "specialized", "expert", "discipline",
   "paradigm", "school of thought", "perspective", "worldview"].map String.toList

/-- The table `DynamicComplexityRouter.COMPLEX_PHRASES`. -/
def COMPLEX_PHRASES : List (List Char) :=
  ["free will", "moral dimension", "ethical implication", "philosophical issue",
   "autonomous system", "consciousness in", "deterministic model",
   "causal relationship", "relate to", "connection between", "dimensions of",
   "aspects of"].map String.toList

/-- The table `DynamicComplexityRouter.TERM_WEIGHTS` (1.8 is the rational 9/5). -/
def TERM_WEIGHTS : List (List Char × ℚ) :=
  [("philosophical".toList, 3), ("ethical".toList, 3),
   ("epistemological".toList, 3), ("ontology".toList, 3),
   ("metaphysical".toList, 3), ("consciousness".toList, 3),
   ("free will".toList, 3), ("moral dimension".toList, 3),
   ("ethical implication".toList, 3), ("determinism".toList, 3),
   ("analyze".toList, 2), ("synthesize".toList, 2), ("evaluate".toList, 2),
   ("explore".toList, 2), ("discuss".toList, 2),
   ("complex".toList, 9/5), ("theory".toList, 9/5),
   ("implications".toList, 9/5), ("considerations".toList, 9/5),
   ("paradox".toList, 9/5), ("dilemma".toList, 9/5), ("moral".toList, 9/5),
   ("dimensions".toList, 9/5), ("autonomous".toList, 9/5),
   ("relate".toList, 9/5)]

/-- The lookup `TERM_WEIGHTS.get(term, default)`. -/
def termWeightOr (dflt : ℚ) (t : List Char) : ℚ :=
  match TERM_WEIGHTS.find? (fun p => p.1 == t) with
  | some p => p.2
  | none => dflt

/-- Weighted count over the single-word indicator loop (default weight 1). -/
def indicatorCount (q : List Char) : ℚ :=
  (COMPLEXITY_INDICATORS.map fun t => if isSubB t q then termWeightOr 1 t else 0).sum

/-- Weighted count over the phrase loop (default weight 2). -/
def phraseCount (q : List Char) : ℚ :=
  (COMPLEX_PHRASES.map fun t => if isSubB t q then termWeightOr 2 t else 0).sum

/-- AI-reference terms of the topic boost. -/
def AI_TERMS : List (List Char) := ["ai", "artificial intelligence"].map String.toList

/-- Ethics and philosophy terms of the topic boost. -/
def ETHICS_TERMS : List (List Char) :=
  ["ethics", "ethical", "moral", "philosophy", "consciousness", "free will",
   "determinism"].map String.toList

/-- The topic-specific boost of 1.5 for AI ethics and philosophy queries. -/
def topicBoost (q : List Char) : ℚ :=
  if (AI_TERMS.any fun t => isSubB t q) && (ETHICS_TERMS.any fun t => isSubB t q)
  then 3/2 else 0

/-- The full weighted indicator count accumulated by assess_complexity. -/
def totalIndicatorCount (q : List Char) : ℚ :=
  indicatorCount q + phraseCount q + topicBoost q

/-- length_score = min(len(query)/200, 1.0). -/
def lengthScore (q : List Char) : ℚ := min ((q.length : ℚ) / 200) 1

/-- indicator_score = min(indicator_count/6, 1.0). -/
def indicatorScore (q : List Char) : ℚ := min (totalIndicatorCount q / 6) 1

/-- One sentence delimiter of the split on dots, bangs and question marks. -/
def isSentenceDelim (c : Char) : Bool := c = '.' || c = '!' || c = '?'

/-- The split on sentence delimiters, keeping empty segments. -/
def splitDelims : List Char → List (List Char)
  | [] => [[]]
  | c :: cs =>
    if isSentenceDelim c then [] :: splitDelims cs
    else
      match splitDelims cs with
      | [] => [[c]]
      | h :: t => (c :: h) :: t

/-- The stripped, non-empty sentences of the query. -/
def sentencesOf (q : List Char) : List (List Char) :=
  ((splitDelims q).map pyStrip).filter fun s => !s.isEmpty

/-- Number of words of Python's s.split(): the number of maximal
non-whitespace runs. -/
def countWordsAux : Bool → List Char → Nat
  | _, [] => 0
  | inWord, c :: cs =>
    if isWsChar c then countWordsAux false cs
    else (if inWord then 0 else 1) + countWordsAux true cs

/-- len(s.split()) for one sentence. -/
def countWords (s : List Char) : Nat := countWordsAux false s

/-- avg_words_per_sentence, with the max(len, 1) denominator guard. -/
def avgWordsPerSentence (q : List Char) : ℚ :=
  ((((sentencesOf q).map countWords).sum : Nat) : ℚ)
    / ((max (sentencesOf q).length 1 : Nat) : ℚ)

/-- sentence_score = min(avg_words_per_sentence/20, 1.0). -/
def sentenceScore (q : List Char) : ℚ := min (avgWordsPerSentence q / 20) 1

/-- The combined complexity score of assess_complexity (weights 0.20,
0.70, 0.10), computed on the lower-cased query. -/
def complexity_score (query : List Char) : ℚ :=
  1/5 * lengthScore (lowerStr query) + 7/10 * indicatorScore (lowerStr query)
    + 1/10 * sentenceScore (lowerStr query)

/-- The method `DynamicComplexityRouter.assess_complexity`: the returned pair
(is_complex, complexity_score), with the 0.30 threshold. -/
def assess_complexity (query : List Char) : Bool × ℚ :=
  (decide (3/10 < complexity_score query), complexity_score query)

/-- Modelled from the spec: the ordered list of matched indicators as
(term, weight) pairs, which the spec's ComplexityAssessment data model
says assess returns in addition to the score and the boolean.  The source
computes no such list (assess_complexity returns only the pair), so this
definition follows the spec's words: the recognized single-term and
phrase indicators present in the lower-cased query, in table order, each
with its configured weight. -/
def matchedIndicators (query : List Char) : List (List Char × ℚ) :=
  ((COMPLEXITY_INDICATORS.filter fun t => isSubB t (lowerStr query)).map
      fun t => (t, termWeightOr 1 t)) ++
    ((COMPLEX_PHRASES.filter fun t => isSubB t (lowerStr query)).map
      fun t => (t, termWeightOr 2 t))

/-- The terms carrying weight 3.0 in TERM_WEIGHTS. -/
def HIGH_WEIGHT_TERMS : List (List Char) :=
  ["philosophical", "ethical", "epistemological", "ontology", "metaphysical",
   "consciousness", "free will", "determinism", "moral dimension",
   "ethical implication"].map String.toList

/-! ## ragbase/chain.py

Object references are modelled as numeric identities: two fields holding
the same number model two Python names bound to the same object. -/

/-- The inner chain object probed by update_chain_llm.  `retrieverAttr`
and `firstRetrieverAttr` model the results of the source's two attribute
probes (hasattr(inner, "retriever") and hasattr(inner.first,
"retriever")), none meaning the attribute is absent; `compRetriever` and
`compLLM` are the retrieval-stage reference and the model actually wired
into the composition. -/
structure Inner where
  retrieverAttr : Option Nat
  firstRetrieverAttr : Option Nat
  compRetriever : Nat
  compLLM : Nat
deriving DecidableEq

/-- A pipeline object: either a RunnableWithMessageHistory wrapper whose
`.runnable` attribute holds the inner chain, or a bare chain with an
optional `.retriever` attribute. -/
inductive Chain where
  | withHistory (inner : Inner)
  | plain (retrieverAttr : Option Nat) (compRetriever : Nat) (compLLM : Nat)
deriving DecidableEq

/-- The inner chain built by update_chain_llm around a located retriever
reference and the new model: a fresh composition
(RunnablePassthrough.assign | prompt | llm) exposing neither probe
attribute. -/
def mkInner (r llm : Nat) : Inner :=
  { retrieverAttr := none, firstRetrieverAttr := none,
    compRetriever := r, compLLM := llm }

/-- The retrieval-stage reference a pipeline is wired to. -/
def retrievalRefOf : Chain → Nat
  | .withHistory inner => inner.compRetriever
  | .plain _ comp _ => comp

/-- Consistency of the probed attributes with the wired retrieval stage:
when a probe finds an attribute, the attribute refers to the pipeline's
retrieval-stage object — as it does on every chain the application
builds. -/
def WfChain : Chain → Prop
  | .withHistory inner =>
    (∀ r ∈ inner.retrieverAttr, r = inner.compRetriever) ∧
    (∀ r ∈ inner.firstRetrieverAttr, r = inner.compRetriever)
  | .plain rAttr comp _ => ∀ r ∈ rAttr, r = comp

/-- The function `update_chain_llm` of ragbase/chain.py: for a history-wrapped chain
probe `.retriever` then `.first.retriever` on the inner chain; for a bare
chain probe `.retriever`.  When no retriever is located, return the
original chain unchanged; otherwise build a fresh inner chain around the
same retriever reference and the new model and wrap it with the
message-history configuration. -/
def update_chain_llm (chain : Chain) (llm : Nat) : Chain :=
  match chain with
  | .withHistory inner =>
    match inner.retrieverAttr.orElse (fun _ => inner.firstRetrieverAttr) with
    | none => chain
    | some r => .withHistory (mkInner r llm)
  | .plain rAttr _ _ =>
    match rAttr with
    | none => chain
    | some r => .withHistory (mkInner r llm)

/-! ### The streaming loop of ask_question -/

/-- One event of the underlying astream_events stream: the retriever
stage's end event carrying the retrieved documents, a chain-stream event
carrying one generated chunk, or any other event, which the loop body
ignores. -/
inductive RawEvent where
  | retrieverEnd (docs : List String)
  | chainStream (chunk : String)
  | other
deriving DecidableEq

/-- One element of the orchestrator's output sequence. -/
inductive StreamEvent where
  | sources (docs : List String)
  | textDelta (chunk : String)
  | error (msg : String)
deriving DecidableEq

/-- The per-event processing of the async-for body of ask_question:
on_retriever_end yields the retrieved documents, on_chain_stream yields
the chunk content, every other event yields nothing. -/
def processEvent : RawEvent → Option StreamEvent
  | .retrieverEnd docs => some (.sources docs)
  | .chainStream chunk => some (.textDelta chunk)
  | .other => none

/-- The error message built by the except branch of ask_question. -/
def errorMessage (e : String) : String :=
  "An error occurred while processing your question: " ++ e

/-- The event loop of ask_question: the underlying stream yields the
events of `evs` in order and then either finishes normally (`exc = none`)
or raises an exception carrying message `e` (`exc = some e`), in which
case the except branch yields exactly one error message and the generator
terminates. -/
def ask_question_events : List RawEvent → Option String → List StreamEvent
  | [], none => []
  | [], some e => [.error (errorMessage e)]
  | ev :: rest, exc =>
    match processEvent ev with
    | some se => se :: ask_question_events rest exc
    | none => ask_question_events rest exc

/-- Recognizer for error events. -/
def isErrorEvent : StreamEvent → Bool
  | .error _ => true
  | _ => false

/-- The chain selected by the routing step at the top of ask_question:
with routing enabled, a raising factory (`Except.error`) falls back to
the original chain, and an updated chain is adopted only when
update_chain_llm actually produced a different pipeline. -/
def routed_chain (autoRouting : Bool) (factory : Except String Nat)
    (chain : Chain) : Chain :=
  if autoRouting then
    match factory with
    | .error _ => chain
    | .ok llm =>
      let updated := update_chain_llm chain llm
      if updated = chain then chain else updated
  else chain

/-- One full turn: route (possibly falling back), then stream the chosen
chain's events through the loop.  `stream` maps the invoked chain to the
events its invocation produces and the optional exception ending it. -/
def ask_question_turn (autoRouting : Bool) (factory : Except String Nat)
    (chain : Chain) (stream : Chain → List RawEvent × Option String) :
    List StreamEvent :=
  ask_question_events (stream (routed_chain autoRouting factory chain)).1
    (stream (routed_chain autoRouting factory chain)).2

/-! ## Theorems -/

theorem toRuns_cons_of_nil {c : Char} {cs : List Char} (hr : toRuns cs = []) :
    toRuns (c :: cs) = [(c, 1)] := by
  simp [toRuns, hr]

theorem toRuns_cons_of_eq {c d : Char} {n : Nat} {rest : List (Char × Nat)}
    {cs : List Char} (hr : toRuns cs = (d, n) :: rest) (hcd : c = d) :
    toRuns (c :: cs) = (d, n + 1) :: rest := by
  simp [toRuns, hr, hcd]

theorem toRuns_cons_of_ne {c d : Char} {n : Nat} {rest : List (Char × Nat)}
    {cs : List Char} (hr : toRuns cs = (d, n) :: rest) (hcd : ¬ c = d) :
    toRuns (c :: cs) = (c, 1) :: (d, n) :: rest := by
  simp [toRuns, hr, hcd]

theorem toRuns_eq_nil_iff (s : List Char) : toRuns s = [] ↔ s = [] := by
  cases s with
  | nil => simp [toRuns]
  | cons c cs =>
    simp only [toRuns]
    cases h : toRuns cs with
    | nil => simp
    | cons q rest =>
      obtain ⟨d, n⟩ := q
      by_cases hc : c = d <;> simp [hc]

theorem toRuns_head_char (s : List Char) :
    ((toRuns s).head?).map Prod.fst = s.head? := by
  cases s with
  | nil => simp [toRuns]
  | cons c cs =>
    simp only [toRuns]
    cases h : toRuns cs with
    | nil => simp
    | cons q rest =>
      obtain ⟨d, n⟩ := q
      by_cases hc : c = d <;> simp [hc]

theorem runsOk_cons_tail {p : Char × Nat} {r : List (Char × Nat)}
    (h : RunsOk (p :: r) = true) : RunsOk r = true := by
  cases r with
  | nil => rfl
  | cons q rest => simp only [RunsOk, Bool.and_eq_true] at h; exact h.2

theorem runsOk_toRuns (s : List Char) : RunsOk (toRuns s) = true := by
  induction s with
  | nil => rfl
  | cons c cs ih =>
    simp only [toRuns]
    cases h : toRuns cs with
    | nil => rfl
    | cons q rest =>
      obtain ⟨d, n⟩ := q
      rw [h] at ih
      by_cases hc : c = d
      · simp only [hc, if_pos rfl]
        cases rest with
        | nil => simp [RunsOk]
        | cons q' rest' =>
          simp only [RunsOk, Bool.and_eq_true] at ih ⊢
          exact ⟨⟨by simp, ih.1.2⟩, ih.2⟩
      · simp only [if_neg hc, RunsOk, Bool.and_eq_true]
        exact ⟨⟨by simp, by simp [hc]⟩, ih⟩

theorem fromRuns_toRuns (s : List Char) : fromRuns (toRuns s) = s := by
  induction s with
  | nil => rfl
  | cons c cs ih =>
    simp only [toRuns]
    cases h : toRuns cs with
    | nil =>
      have hcs := (toRuns_eq_nil_iff cs).mp h
      subst hcs
      rfl
    | cons q rest =>
      obtain ⟨d, n⟩ := q
      rw [h] at ih
      by_cases hc : c = d
      · simp only [hc, if_pos rfl, fromRuns] at ih ⊢
        rw [List.replicate_succ, List.cons_append, ih]
      · simp only [if_neg hc, fromRuns] at ih ⊢
        rw [ih]
        rfl

theorem head?_fromRuns_cons {c : Char} {n : Nat} (r : List (Char × Nat))
    (hn : 1 ≤ n) : (fromRuns ((c, n) :: r)).head? = some c := by
  cases n with
  | zero => omega
  | succ m => simp [fromRuns, List.replicate_succ]

theorem toRuns_replicate_append {c : Char} {n : Nat} (hn : 1 ≤ n)
    (z : List Char) (hz : ∀ p ∈ (toRuns z).head?, p.1 ≠ c) :
    toRuns (List.replicate n c ++ z) = (c, n) :: toRuns z := by
  induction n with
  | zero => omega
  | succ m ih =>
    cases m with
    | zero =>
      simp only [List.replicate_succ, List.replicate_zero, List.nil_append,
        List.cons_append, toRuns]
      cases h : toRuns z with
      | nil =>
        have := (toRuns_eq_nil_iff z).mp h
        subst this
        simp [toRuns]
      | cons q rest =>
        obtain ⟨d, m'⟩ := q
        have hd : d ≠ c := hz (d, m') (by rw [h]; rfl)
        have hcd : ¬ (c = d) := fun hcd => hd hcd.symm
        simp [toRuns, h, hcd]
    | succ k =>
      have ihk := ih (by omega)
      simp only [List.replicate_succ, List.cons_append, toRuns] at ihk ⊢
      rw [ihk]
      simp

theorem toRuns_fromRuns {r : List (Char × Nat)} (h : RunsOk r = true) :
    toRuns (fromRuns r) = r := by
  induction r with
  | nil => rfl
  | cons q rest ih =>
    obtain ⟨c, n⟩ := q
    have hn : 1 ≤ n := by
      cases rest <;> simp only [RunsOk, Bool.and_eq_true] at h
      · exact of_decide_eq_true h
      · exact of_decide_eq_true h.1.1
    have hrest : RunsOk rest = true := runsOk_cons_tail h
    simp only [fromRuns]
    rw [toRuns_replicate_append hn (fromRuns rest), ih hrest]
    intro p hp hpc
    rw [ih hrest] at hp
    cases rest with
    | nil => simp at hp
    | cons q' rest' =>
      simp only [List.head?_cons, Option.mem_def, Option.some.injEq] at hp
      subst hp
      simp only [RunsOk, Bool.and_eq_true] at h
      have := h.1.2
      simp only [Bool.not_eq_true', decide_eq_false_iff_not] at this
      exact this (by rw [hpc])

/-- The run chars of a map with char-preserving `f` are the original run
chars, so `RunsOk` is preserved when `f` also preserves positivity. -/
theorem runsOk_map {f : Char × Nat → Char × Nat}
    (hc : ∀ q, (f q).1 = q.1) (hp : ∀ q, 1 ≤ q.2 → 1 ≤ (f q).2)
    {r : List (Char × Nat)} (h : RunsOk r = true) : RunsOk (r.map f) = true := by
  induction r with
  | nil => rfl
  | cons q rest ih =>
    cases rest with
    | nil =>
      simp only [RunsOk] at h
      simp only [List.map_cons, List.map_nil, RunsOk]
      exact decide_eq_true (hp q (of_decide_eq_true h))
    | cons q' rest' =>
      simp only [RunsOk, Bool.and_eq_true] at h
      simp only [List.map_cons, RunsOk, Bool.and_eq_true]
      refine ⟨⟨?_, ?_⟩, ?_⟩
      · exact decide_eq_true (hp q (of_decide_eq_true h.1.1))
      · rw [hc q, hc q']
        exact h.1.2
      · exact ih h.2

theorem toRuns_subRuns {f : Char × Nat → Char × Nat}
    (hc : ∀ q, (f q).1 = q.1) (hp : ∀ q, 1 ≤ q.2 → 1 ≤ (f q).2)
    (s : List Char) : toRuns (subRuns f s) = (toRuns s).map f := by
  unfold subRuns
  exact toRuns_fromRuns (runsOk_map hc hp (runsOk_toRuns s))

theorem subRuns_fixed {f : Char × Nat → Char × Nat} {s : List Char}
    (h : ∀ q ∈ toRuns s, f q = q) : subRuns f s = s := by
  unfold subRuns
  rw [List.map_congr_left h, List.map_id', fromRuns_toRuns]

theorem noAdjWs_cons (c : Char) (z : List Char) :
    noAdjWs (c :: z) =
      ((match z.head? with
        | none => true
        | some d => !(isWsChar c && isWsChar d)) && noAdjWs z) := by
  cases z with
  | nil => simp [noAdjWs]
  | cons d r => simp [noAdjWs]

theorem head?_collapseWs (s : List Char) :
    (collapseWs s).head? = s.head?.map (fun c => if isWsChar c then ' ' else c) := by
  induction s using collapseWs.induct with
  | case1 => rfl
  | case2 c h => simp [collapseWs, h]
  | case3 c h => simp [collapseWs, h]
  | case4 c d r h ih =>
    simp only [Bool.and_eq_true] at h
    simp only [collapseWs, if_pos (by simp [h.1, h.2] : (isWsChar c && isWsChar d) = true)]
    rw [ih]
    simp [h.1, h.2]
  | case5 c d r h ih =>
    simp only [collapseWs, if_neg h]
    by_cases hc : isWsChar c <;> simp [hc]

theorem allWsSpace_collapseWs (s : List Char) : allWsSpace (collapseWs s) = true := by
  induction s using collapseWs.induct with
  | case1 => rfl
  | case2 c h =>
    simp only [collapseWs, if_pos h]
    decide
  | case3 c h => simp [collapseWs, h, allWsSpace]
  | case4 c d r h ih =>
    simp only [collapseWs, if_pos h]
    exact ih
  | case5 c d r h ih =>
    simp only [collapseWs, if_neg h]
    simp only [allWsSpace, List.all_cons, Bool.and_eq_true]
    refine ⟨?_, by simpa [allWsSpace] using ih⟩
    by_cases hc : isWsChar c
    · simp only [if_pos hc]
      decide
    · simp [hc]

theorem noAdjWs_collapseWs (s : List Char) : noAdjWs (collapseWs s) = true := by
  induction s using collapseWs.induct with
  | case1 => rfl
  | case2 c h => simp [collapseWs, h, noAdjWs]
  | case3 c h => simp [collapseWs, h, noAdjWs]
  | case4 c d r h ih =>
    simp only [collapseWs, if_pos h]
    exact ih
  | case5 c d r h ih =>
    simp only [collapseWs, if_neg h]
    rw [noAdjWs_cons, head?_collapseWs]
    simp only [Bool.and_eq_true]
    refine ⟨?_, ih⟩
    simp only [Bool.and_eq_true, not_and, Bool.not_eq_true] at h
    by_cases hc : isWsChar c
    · have hd : isWsChar d = false := h hc
      simp [hd]
    · simp [hc]

theorem collapseWs_fixed {s : List Char}
    (ha : allWsSpace s = true) (hn : noAdjWs s = true) : collapseWs s = s := by
  induction s using collapseWs.induct with
  | case1 => rfl
  | case2 c h =>
    simp only [allWsSpace, List.all_cons, List.all_nil, Bool.and_true,
      Bool.or_eq_true, Bool.not_eq_true'] at ha
    have hc : c = ' ' := by
      rcases ha with h' | h'
      · rw [h] at h'; cases h'
      · exact beq_iff_eq.mp h'
    simp [collapseWs, h, hc]
  | case3 c h => simp [collapseWs, h]
  | case4 c d r h ih =>
    rw [noAdjWs_cons] at hn
    simp only [List.head?_cons, h, Bool.and_eq_true] at hn
    simp at hn
  | case5 c d r h ih =>
    simp only [collapseWs, if_neg h]
    simp only [allWsSpace, List.all_cons, Bool.and_eq_true] at ha
    rw [noAdjWs_cons] at hn
    simp only [List.head?_cons, Bool.and_eq_true] at hn
    have tail_eq := ih (by simpa [allWsSpace] using ha.2) hn.2
    rw [tail_eq]
    by_cases hc : isWsChar c
    · have hsp : c = ' ' := by
        have := ha.1
        simp only [Bool.or_eq_true, Bool.not_eq_true'] at this
        rcases this with h' | h'
        · rw [hc] at h'; cases h'
        · exact beq_iff_eq.mp h'
      simp [hc, hsp]
    · simp [hc]

theorem headNotWs_dropWhile (s : List Char) :
    headNotWs (s.dropWhile isWsChar) = true := by
  induction s with
  | nil => rfl
  | cons c cs ih =>
    by_cases h : isWsChar c
    · rw [List.dropWhile_cons, if_pos h]; exact ih
    · rw [List.dropWhile_cons, if_neg h]
      simp [headNotWs, h]

theorem allWsSpace_append (u v : List Char) :
    allWsSpace (u ++ v) = (allWsSpace u && allWsSpace v) := by
  simp [allWsSpace, List.all_append]

theorem noAdjWs_append_right {u v : List Char}
    (h : noAdjWs (u ++ v) = true) : noAdjWs v = true := by
  induction u with
  | nil => exact h
  | cons c u' ih =>
    rw [List.cons_append, noAdjWs_cons, Bool.and_eq_true] at h
    exact ih h.2

theorem noAdjWs_append_left {u v : List Char}
    (h : noAdjWs (u ++ v) = true) : noAdjWs u = true := by
  induction u with
  | nil => rfl
  | cons c u' ih =>
    rw [List.cons_append, noAdjWs_cons, Bool.and_eq_true] at h
    rw [noAdjWs_cons, Bool.and_eq_true]
    refine ⟨?_, ih h.2⟩
    cases u' with
    | nil => simp
    | cons d u'' =>
      have := h.1
      simpa using this

theorem headNotWs_append_left {a b : List Char}
    (h : headNotWs (a ++ b) = true) : headNotWs a = true := by
  cases a with
  | nil => rfl
  | cons c a' => simpa [headNotWs] using h

theorem rstripWs_append_exists (s : List Char) : ∃ u, rstripWs s ++ u = s := by
  refine ⟨(s.reverse.takeWhile isWsChar).reverse, ?_⟩
  rw [rstripWs, ← List.reverse_append, List.takeWhile_append_dropWhile,
    List.reverse_reverse]

theorem lastNotWs_rstripWs (s : List Char) : lastNotWs (rstripWs s) = true := by
  unfold lastNotWs rstripWs
  rw [List.reverse_reverse]
  exact headNotWs_dropWhile _

theorem headNotWs_rstripWs {s : List Char} (h : headNotWs s = true) :
    headNotWs (rstripWs s) = true := by
  obtain ⟨u, hu⟩ := rstripWs_append_exists s
  rw [← hu] at h
  exact headNotWs_append_left h

theorem lastNotWs_dropWhile {s : List Char} (h : lastNotWs s = true) :
    lastNotWs (s.dropWhile isWsChar) = true := by
  have hdecomp : s.takeWhile isWsChar ++ s.dropWhile isWsChar = s :=
    List.takeWhile_append_dropWhile isWsChar s
  unfold lastNotWs at h ⊢
  rw [← hdecomp, List.reverse_append] at h
  exact headNotWs_append_left h

theorem headNotWs_pyStrip (s : List Char) : headNotWs (pyStrip s) = true :=
  headNotWs_rstripWs (headNotWs_dropWhile s)

theorem lastNotWs_pyStrip (s : List Char) : lastNotWs (pyStrip s) = true :=
  lastNotWs_rstripWs _

theorem allWsSpace_pyStrip {s : List Char} (h : allWsSpace s = true) :
    allWsSpace (pyStrip s) = true := by
  have hdecomp : s.takeWhile isWsChar ++ s.dropWhile isWsChar = s :=
    List.takeWhile_append_dropWhile isWsChar s
  have h1 : allWsSpace (s.dropWhile isWsChar) = true := by
    rw [← hdecomp, allWsSpace_append, Bool.and_eq_true] at h
    exact h.2
  obtain ⟨u, hu⟩ := rstripWs_append_exists (s.dropWhile isWsChar)
  rw [← hu, allWsSpace_append, Bool.and_eq_true] at h1
  exact h1.1

theorem noAdjWs_pyStrip {s : List Char} (h : noAdjWs s = true) :
    noAdjWs (pyStrip s) = true := by
  have hdecomp : s.takeWhile isWsChar ++ s.dropWhile isWsChar = s :=
    List.takeWhile_append_dropWhile isWsChar s
  have h1 : noAdjWs (s.dropWhile isWsChar) = true :=
    noAdjWs_append_right (u := s.takeWhile isWsChar) (by rw [hdecomp]; exact h)
  obtain ⟨u, hu⟩ := rstripWs_append_exists (s.dropWhile isWsChar)
  unfold pyStrip
  exact noAdjWs_append_left (v := u) (by rw [hu]; exact h1)

theorem dropWhile_fixed_of_headNotWs {s : List Char} (h : headNotWs s = true) :
    s.dropWhile isWsChar = s := by
  cases s with
  | nil => rfl
  | cons c cs =>
    simp only [headNotWs, List.head?_cons, Bool.not_eq_true'] at h
    simp [List.dropWhile_cons, h]

theorem rstripWs_fixed_of_lastNotWs {s : List Char} (h : lastNotWs s = true) :
    rstripWs s = s := by
  unfold lastNotWs at h
  unfold rstripWs
  rw [dropWhile_fixed_of_headNotWs h, List.reverse_reverse]

theorem pyStrip_fixed {s : List Char} (hh : headNotWs s = true)
    (hl : lastNotWs s = true) : pyStrip s = s := by
  unfold pyStrip
  rw [dropWhile_fixed_of_headNotWs hh, rstripWs_fixed_of_lastNotWs hl]

/-! ### Bridging string facts and run facts -/

theorem mem_toRuns_char {s : List Char} {q : Char × Nat} (h : q ∈ toRuns s) :
    q.1 ∈ s := by
  induction s with
  | nil => simp [toRuns] at h
  | cons c cs ih =>
    rw [toRuns] at h
    cases hr : toRuns cs with
    | nil =>
      rw [hr] at h
      simp only [List.mem_singleton] at h
      rw [h]
      exact List.mem_cons_self _ _
    | cons p rest =>
      obtain ⟨d, n⟩ := p
      rw [hr] at h
      by_cases hcd : c = d
      · simp only [if_pos hcd] at h
        rcases List.mem_cons.mp h with rfl | h'
        · rw [hcd]; exact List.mem_cons_self _ _
        · exact List.mem_cons_of_mem _ (ih (by rw [hr]; exact List.mem_cons_of_mem _ h'))
      · simp only [if_neg hcd] at h
        rcases List.mem_cons.mp h with rfl | h'
        · exact List.mem_cons_self _ _
        · exact List.mem_cons_of_mem _ (ih (by rw [hr]; exact h'))

theorem runsOk_mem_pos {r : List (Char × Nat)} (h : RunsOk r = true) :
    ∀ q ∈ r, 1 ≤ q.2 := by
  induction r with
  | nil => simp
  | cons q rest ih =>
    intro p hp
    rcases List.mem_cons.mp hp with rfl | hp'
    · cases rest with
      | nil => exact of_decide_eq_true h
      | cons q' rest' =>
        simp only [RunsOk, Bool.and_eq_true] at h
        exact of_decide_eq_true h.1.1
    · exact ih (runsOk_cons_tail h) p hp'

theorem noAdjWs_tail {c : Char} {cs : List Char} (h : noAdjWs (c :: cs) = true) :
    noAdjWs cs = true := by
  rw [noAdjWs_cons, Bool.and_eq_true] at h
  exact h.2

theorem wsRunCount_toRuns (s : List Char) :
    noAdjWs s = true → ∀ q ∈ toRuns s, isWsChar q.1 = true → q.2 = 1 := by
  induction s with
  | nil => intro _ q hq; simp [toRuns] at hq
  | cons c cs ih =>
    intro hn q hq hws
    rw [toRuns] at hq
    cases hr : toRuns cs with
    | nil =>
      rw [hr] at hq
      simp only [List.mem_singleton] at hq
      rw [hq]
    | cons p rest =>
      obtain ⟨d, n⟩ := p
      rw [hr] at hq
      have hhead : cs.head? = some d := by
        have := toRuns_head_char cs
        rw [hr] at this
        simpa using this.symm
      by_cases hcd : c = d
      · simp only [if_pos hcd] at hq
        rcases List.mem_cons.mp hq with rfl | hq'
        · exfalso
          rw [noAdjWs_cons, hhead, Bool.and_eq_true] at hn
          have h1 := hn.1
          rw [hcd] at h1
          simp [hws] at h1
        · exact ih (noAdjWs_tail hn) q (by rw [hr]; exact List.mem_cons_of_mem _ hq') hws
      · simp only [if_neg hcd] at hq
        rcases List.mem_cons.mp hq with rfl | hq'
        · rfl
        · exact ih (noAdjWs_tail hn) q (by rw [hr]; exact hq') hws

theorem adjWsOkR_cons (p : Char × Nat) (r : List (Char × Nat)) :
    adjWsOkR (p :: r) =
      ((match r.head? with
        | none => true
        | some q => !(isWsChar p.1 && isWsChar q.1)) && adjWsOkR r) := by
  cases r with
  | nil => simp [adjWsOkR]
  | cons q rest => simp [adjWsOkR]

theorem adjWsOkR_toRuns (s : List Char) :
    noAdjWs s = true → adjWsOkR (toRuns s) = true := by
  induction s with
  | nil => intro _; rfl
  | cons c cs ih =>
    intro hn
    cases hr : toRuns cs with
    | nil => rw [toRuns_cons_of_nil hr]; rfl
    | cons p rest =>
      obtain ⟨d, n⟩ := p
      have hrec := ih (noAdjWs_tail hn)
      rw [hr] at hrec
      have hhead : cs.head? = some d := by
        have := toRuns_head_char cs
        rw [hr] at this
        simpa using this.symm
      by_cases hcd : c = d
      · rw [toRuns_cons_of_eq hr hcd]
        rw [adjWsOkR_cons] at hrec ⊢
        exact hrec
      · rw [toRuns_cons_of_ne hr hcd]
        rw [adjWsOkR_cons]
        simp only [List.head?_cons, Bool.and_eq_true]
        refine ⟨?_, hrec⟩
        rw [noAdjWs_cons, hhead, Bool.and_eq_true] at hn
        exact hn.1

theorem toRuns_getLast_char (s : List Char) :
    ((toRuns s).getLast?).map Prod.fst = s.getLast? := by
  induction s with
  | nil => rfl
  | cons c cs ih =>
    cases hr : toRuns cs with
    | nil =>
      have hcs : cs = [] := (toRuns_eq_nil_iff cs).mp hr
      subst hcs
      rfl
    | cons p rest =>
      obtain ⟨d, n⟩ := p
      have hcs : cs ≠ [] := by
        intro h
        subst h
        simp [toRuns] at hr
      rw [hr] at ih
      have hgoal : (c :: cs).getLast? = cs.getLast? := by
        cases cs with
        | nil => exact absurd rfl hcs
        | cons e es => exact List.getLast?_cons_cons
      rw [hgoal]
      by_cases hcd : c = d
      · rw [toRuns_cons_of_eq hr hcd]
        rw [← ih]
        cases rest with
        | nil => rfl
        | cons p' rest' =>
          rw [List.getLast?_cons_cons, List.getLast?_cons_cons]
      · rw [toRuns_cons_of_ne hr hcd]
        rw [← ih, List.getLast?_cons_cons]

/-! ### Facts about strings rebuilt from runs -/

theorem allWsSpace_fromRuns {r : List (Char × Nat)}
    (h : ∀ q ∈ r, isWsChar q.1 = true → q.1 = ' ') :
    allWsSpace (fromRuns r) = true := by
  induction r with
  | nil => rfl
  | cons q rest ih =>
    simp only [fromRuns, allWsSpace, List.all_append, Bool.and_eq_true]
    constructor
    · simp only [List.all_eq_true]
      intro c hc
      have hcq : c = q.1 := List.eq_of_mem_replicate hc
      subst hcq
      by_cases hws : isWsChar q.1
      · have := h q (List.mem_cons_self _ _) hws
        simp [this]
      · simp [hws]
    · exact ih fun p hp => h p (List.mem_cons_of_mem _ hp)

theorem noAdjWs_replicate_append_not_ws {c : Char} (hc : isWsChar c = false)
    (n : Nat) (z : List Char) :
    noAdjWs (List.replicate n c ++ z) = noAdjWs z := by
  induction n with
  | zero => rfl
  | succ m ih =>
    rw [List.replicate_succ, List.cons_append, noAdjWs_cons, ih]
    have hmatch : (match (List.replicate m c ++ z).head? with
        | none => true
        | some d => !(isWsChar c && isWsChar d)) = true := by
      cases (List.replicate m c ++ z).head? with
      | none => rfl
      | some d => simp [hc]
    rw [hmatch]
    simp

theorem noAdjWs_fromRuns {r : List (Char × Nat)} (hok : RunsOk r = true)
    (hcount : ∀ q ∈ r, isWsChar q.1 = true → q.2 = 1)
    (hadj : adjWsOkR r = true) :
    noAdjWs (fromRuns r) = true := by
  induction r with
  | nil => rfl
  | cons q rest ih =>
    obtain ⟨c, n⟩ := q
    have htail := ih (runsOk_cons_tail hok)
      (fun p hp => hcount p (List.mem_cons_of_mem _ hp))
      (by rw [adjWsOkR_cons, Bool.and_eq_true] at hadj; exact hadj.2)
    simp only [fromRuns]
    by_cases hws : isWsChar c
    · have hn1 : n = 1 := hcount (c, n) (List.mem_cons_self _ _) hws
      subst hn1
      simp only [List.replicate_succ, List.replicate_zero, List.nil_append,
        List.cons_append]
      rw [noAdjWs_cons, Bool.and_eq_true]
      refine ⟨?_, htail⟩
      cases rest with
      | nil => simp [fromRuns]
      | cons q' rest' =>
        obtain ⟨d, m⟩ := q'
        have hm : 1 ≤ m :=
          runsOk_mem_pos (runsOk_cons_tail hok) (d, m) (List.mem_cons_self _ _)
        rw [head?_fromRuns_cons rest' hm]
        rw [adjWsOkR_cons, Bool.and_eq_true] at hadj
        have := hadj.1
        simpa using this
    · rw [noAdjWs_replicate_append_not_ws (by simpa using hws)]
      exact htail

/-! ### Pointwise facts about the run rewritings -/

theorem fDot_char (q : Char × Nat) : (fDot q).1 = q.1 := by
  unfold fDot
  by_cases h : q.1 = '.' ∧ 2 ≤ q.2
  · rw [if_pos h]; exact h.1.symm
  · rw [if_neg h]

theorem fDot_pos (q : Char × Nat) (hq : 1 ≤ q.2) : 1 ≤ (fDot q).2 := by
  unfold fDot
  by_cases h : q.1 = '.' ∧ 2 ≤ q.2
  · rw [if_pos h]; exact Nat.one_le_iff_ne_zero.mpr (by simp)
  · rw [if_neg h]; exact hq

theorem fRep_char (a : Char) (q : Char × Nat) : (fRep a q).1 = q.1 := by
  unfold fRep
  by_cases h : q.1 = a
  · rw [if_pos h]; exact h.symm
  · rw [if_neg h]

theorem fRep_pos (a : Char) (q : Char × Nat) (hq : 1 ≤ q.2) : 1 ≤ (fRep a q).2 := by
  unfold fRep
  by_cases h : q.1 = a
  · rw [if_pos h]
  · rw [if_neg h]; exact hq

theorem fDot_fixed {q : Char × Nat} (h : q.1 = '.' → q.2 = 1 ∨ q.2 = 3) :
    fDot q = q := by
  obtain ⟨c, n⟩ := q
  unfold fDot
  by_cases hq : c = '.' ∧ 2 ≤ n
  · rw [if_pos hq]
    rcases h hq.1 with h1 | h3
    · exfalso
      have := hq.2
      simp only at h1
      omega
    · simp only at h3
      rw [Prod.mk.injEq]
      exact ⟨hq.1.symm, h3.symm⟩
  · rw [if_neg hq]

theorem fRep_fixed {a : Char} {q : Char × Nat} (h : q.1 = a → q.2 = 1) :
    fRep a q = q := by
  obtain ⟨c, n⟩ := q
  unfold fRep
  by_cases hq : c = a
  · rw [if_pos hq, Prod.mk.injEq]
    exact ⟨hq.symm, (h hq).symm⟩
  · rw [if_neg hq]

theorem fDot_ws_fixed {q : Char × Nat} (h : isWsChar q.1 = true) : fDot q = q := by
  unfold fDot
  rw [if_neg]
  intro hc
  rw [hc.1] at h
  exact absurd h (by decide)

theorem fRep_ws_fixed {a : Char} (ha : isWsChar a = false) {q : Char × Nat}
    (h : isWsChar q.1 = true) : fRep a q = q := by
  unfold fRep
  rw [if_neg]
  intro hc
  rw [hc] at h
  rw [h] at ha
  cases ha

theorem fRep_makes_single {a : Char} {q : Char × Nat}
    (h : (fRep a q).1 = a) : (fRep a q).2 = 1 := by
  unfold fRep at h ⊢
  by_cases hq : q.1 = a
  · rw [if_pos hq]
  · rw [if_neg hq] at h
    exact absurd h hq

theorem fRep_preserves_dot {a : Char} (ha : a ≠ '.') {q : Char × Nat}
    (h : q.1 = '.' → q.2 = 1 ∨ q.2 = 3) :
    (fRep a q).1 = '.' → (fRep a q).2 = 1 ∨ (fRep a q).2 = 3 := by
  unfold fRep
  by_cases hq : q.1 = a
  · rw [if_pos hq]
    intro hcontra
    exact absurd hcontra ha
  · rw [if_neg hq]
    exact h

theorem fRep_preserves_other {a b : Char} (hab : a ≠ b) {q : Char × Nat}
    (h : q.1 = b → q.2 = 1) :
    (fRep a q).1 = b → (fRep a q).2 = 1 := by
  unfold fRep
  by_cases hq : q.1 = a
  · rw [if_pos hq]
    intro hcontra
    exact absurd hcontra hab
  · rw [if_neg hq]
    exact h

theorem adjWsOkR_map {f : Char × Nat → Char × Nat} (hc : ∀ q, (f q).1 = q.1)
    {r : List (Char × Nat)} (h : adjWsOkR r = true) : adjWsOkR (r.map f) = true := by
  induction r with
  | nil => rfl
  | cons p rest ih =>
    rw [adjWsOkR_cons, Bool.and_eq_true] at h
    rw [List.map_cons, adjWsOkR_cons, Bool.and_eq_true]
    refine ⟨?_, ih h.2⟩
    rw [List.head?_map]
    cases hr : rest.head? with
    | none => rfl
    | some q =>
      have h1 := h.1
      rw [hr] at h1
      simp only [Option.map_some']
      rw [hc p, hc q]
      exact h1

theorem allWsSpace_mem {s : List Char} (h : allWsSpace s = true) {c : Char}
    (hc : c ∈ s) (hws : isWsChar c = true) : c = ' ' := by
  simp only [allWsSpace, List.all_eq_true] at h
  have := h c hc
  rw [hws] at this
  simpa using this

theorem lastNotWs_eq_getLast (s : List Char) :
    lastNotWs s =
      (match s.getLast? with
       | none => true
       | some c => !isWsChar c) := by
  unfold lastNotWs headNotWs
  rw [List.head?_reverse]

theorem fAll_char (p : Char × Nat) : (fAll p).1 = p.1 := by
  unfold fAll
  rw [fRep_char, fRep_char, fDot_char]

theorem toRuns_optimize (x : List Char) :
    toRuns (optimize_prompt x) = (toRuns (pyStrip (collapseWs x))).map fAll := by
  unfold optimize_prompt
  rw [toRuns_subRuns (fRep_char '?') (fRep_pos '?'),
    toRuns_subRuns (fRep_char '!') (fRep_pos '!'),
    toRuns_subRuns fDot_char fDot_pos,
    List.map_map, List.map_map]
  rfl

theorem optimize_run_mem {x : List Char} {q : Char × Nat}
    (hq : q ∈ toRuns (optimize_prompt x)) :
    ∃ p ∈ toRuns (pyStrip (collapseWs x)), q = fAll p := by
  rw [toRuns_optimize] at hq
  rcases List.mem_map.mp hq with ⟨p, hp, rfl⟩
  exact ⟨p, hp, rfl⟩

theorem optimize_ws_runs (x : List Char) :
    ∀ q ∈ toRuns (optimize_prompt x), isWsChar q.1 = true → q.1 = ' ' ∧ q.2 = 1 := by
  intro q hq hws
  rcases optimize_run_mem hq with ⟨p, hp, rfl⟩
  have hpws : isWsChar p.1 = true := by rw [← fAll_char p]; exact hws
  have hfix : fAll p = p := by
    unfold fAll
    rw [fDot_ws_fixed hpws, fRep_ws_fixed (by decide) hpws,
      fRep_ws_fixed (by decide) hpws]
  rw [hfix]
  have hA : allWsSpace (pyStrip (collapseWs x)) = true :=
    allWsSpace_pyStrip (allWsSpace_collapseWs x)
  have hN : noAdjWs (pyStrip (collapseWs x)) = true :=
    noAdjWs_pyStrip (noAdjWs_collapseWs x)
  exact ⟨allWsSpace_mem hA (mem_toRuns_char hp) hpws,
    wsRunCount_toRuns _ hN p hp hpws⟩

theorem optimize_adj_ws (x : List Char) :
    adjWsOkR (toRuns (optimize_prompt x)) = true := by
  rw [toRuns_optimize]
  exact adjWsOkR_map fAll_char
    (adjWsOkR_toRuns _ (noAdjWs_pyStrip (noAdjWs_collapseWs x)))

theorem optimize_dot_runs (x : List Char) :
    ∀ q ∈ toRuns (optimize_prompt x), q.1 = '.' → q.2 = 1 ∨ q.2 = 3 := by
  intro q hq
  rcases optimize_run_mem hq with ⟨p, hp, rfl⟩
  unfold fAll
  refine fRep_preserves_dot (by decide) (fRep_preserves_dot (by decide) ?_)
  intro hdp
  unfold fDot at hdp ⊢
  by_cases hcase : p.1 = '.' ∧ 2 ≤ p.2
  · rw [if_pos hcase] at hdp ⊢
    right
    rfl
  · rw [if_neg hcase] at hdp ⊢
    left
    have hpos : 1 ≤ p.2 := runsOk_mem_pos (runsOk_toRuns _) p hp
    have h2 : ¬ 2 ≤ p.2 := fun h2 => hcase ⟨hdp, h2⟩
    omega

theorem optimize_bang_runs (x : List Char) :
    ∀ q ∈ toRuns (optimize_prompt x), q.1 = '!' → q.2 = 1 := by
  intro q hq
  rcases optimize_run_mem hq with ⟨p, hp, rfl⟩
  unfold fAll
  exact fRep_preserves_other (by decide) (fun hh => fRep_makes_single hh)

theorem optimize_qmark_runs (x : List Char) :
    ∀ q ∈ toRuns (optimize_prompt x), q.1 = '?' → q.2 = 1 := by
  intro q hq
  rcases optimize_run_mem hq with ⟨p, hp, rfl⟩
  unfold fAll
  exact fun hh => fRep_makes_single hh

theorem optimize_allWsSpace (x : List Char) :
    allWsSpace (optimize_prompt x) = true := by
  rw [← fromRuns_toRuns (optimize_prompt x)]
  exact allWsSpace_fromRuns (fun q hq hws => (optimize_ws_runs x q hq hws).1)

theorem optimize_noAdjWs (x : List Char) :
    noAdjWs (optimize_prompt x) = true := by
  rw [← fromRuns_toRuns (optimize_prompt x)]
  exact noAdjWs_fromRuns (runsOk_toRuns _)
    (fun q hq hws => (optimize_ws_runs x q hq hws).2) (optimize_adj_ws x)

theorem optimize_head? (x : List Char) :
    (optimize_prompt x).head? = (pyStrip (collapseWs x)).head? := by
  rw [← toRuns_head_char (optimize_prompt x), ← toRuns_head_char (pyStrip (collapseWs x)),
    toRuns_optimize, List.head?_map]
  cases (toRuns (pyStrip (collapseWs x))).head? with
  | none => rfl
  | some p =>
    simp only [Option.map_some']
    exact congrArg some (fAll_char p)

theorem optimize_getLast? (x : List Char) :
    (optimize_prompt x).getLast? = (pyStrip (collapseWs x)).getLast? := by
  rw [← toRuns_getLast_char (optimize_prompt x),
    ← toRuns_getLast_char (pyStrip (collapseWs x)),
    toRuns_optimize, List.getLast?_map]
  cases (toRuns (pyStrip (collapseWs x))).getLast? with
  | none => rfl
  | some p =>
    simp only [Option.map_some']
    exact congrArg some (fAll_char p)

theorem optimize_headNotWs (x : List Char) :
    headNotWs (optimize_prompt x) = true := by
  have h := headNotWs_pyStrip (collapseWs x)
  unfold headNotWs at h ⊢
  rw [optimize_head?]
  exact h

theorem optimize_lastNotWs (x : List Char) :
    lastNotWs (optimize_prompt x) = true := by
  have h := lastNotWs_pyStrip (collapseWs x)
  rw [lastNotWs_eq_getLast] at h ⊢
  rw [optimize_getLast?]
  exact h

/-- A string in normal form is a fixed point of optimize_prompt. -/
theorem optimize_prompt_fixed {y : List Char}
    (hA : allWsSpace y = true) (hN : noAdjWs y = true)
    (hH : headNotWs y = true) (hL : lastNotWs y = true)
    (hdot : ∀ q ∈ toRuns y, q.1 = '.' → q.2 = 1 ∨ q.2 = 3)
    (hbang : ∀ q ∈ toRuns y, q.1 = '!' → q.2 = 1)
    (hqm : ∀ q ∈ toRuns y, q.1 = '?' → q.2 = 1) :
    optimize_prompt y = y := by
  have hcw : collapseWs y = y := collapseWs_fixed hA hN
  have hps : pyStrip y = y := pyStrip_fixed hH hL
  have hd : subRuns fDot y = y := subRuns_fixed (fun q hq => fDot_fixed (hdot q hq))
  have hb : subRuns (fRep '!') y = y :=
    subRuns_fixed (fun q hq => fRep_fixed (hbang q hq))
  have hq : subRuns (fRep '?') y = y :=
    subRuns_fixed (fun q hq => fRep_fixed (hqm q hq))
  show subRuns (fRep '?') (subRuns (fRep '!') (subRuns fDot (pyStrip (collapseWs y)))) = y
  rw [hcw, hps, hd, hb, hq]

theorem pyIdx_le (n : Nat) (i : Int) : pyIdx n i ≤ n := by
  unfold pyIdx
  split
  · omega
  · exact Nat.min_le_right _ _

theorem length_pySlice (s : List Char) (a b : Int) :
    (pySlice s a b).length = pyIdx s.length b - pyIdx s.length a := by
  unfold pySlice
  rw [List.length_drop, List.length_take, Nat.min_eq_left (pyIdx_le _ _)]

theorem truncate_text_length {text : List Char} (h : 8000 < text.length) :
    (truncate_text text 8000).length = 8003 := by
  unfold truncate_text
  rw [if_neg (by omega)]
  simp only [List.length_append, List.length_cons, length_pySlice]
  unfold pyIdx
  split_ifs <;> omega

/-- C9: text no longer than the maximum length is returned unchanged, and
strictly longer text is truncated to a string of length exactly
max_length + 3 — that is, truncation output exceeds the stated maximum
(at the source's default max_length of 8000). -/
theorem claim_C9_truncate_text (text : List Char) :
    (text.length ≤ 8000 → truncate_text text 8000 = text) ∧
    (8000 < text.length → (truncate_text text 8000).length = 8003) := by
  constructor
  · intro h
    unfold truncate_text
    rw [if_pos h]
  · exact truncate_text_length

/-- Witness for C9: both branches hold at concrete inputs. -/
theorem claim_C9_truncate_text_witness :
    truncate_text ("abc".toList) 8000 = "abc".toList ∧
    (truncate_text (List.replicate 8001 'a') 8000).length = 8003 :=
  ⟨(claim_C9_truncate_text _).1 (by decide),
    (claim_C9_truncate_text _).2 (by rw [List.length_replicate]; omega)⟩

/-! ### Support lemmas for the complexity scorer -/

theorem termWeightOr_nonneg {d : ℚ} (hd : 0 ≤ d) (t : List Char) :
    0 ≤ termWeightOr d t := by
  unfold termWeightOr
  cases hf : TERM_WEIGHTS.find? (fun p => p.1 == t) with
  | none => exact hd
  | some p =>
    have hmem : p ∈ TERM_WEIGHTS := List.mem_of_find?_eq_some hf
    have hall : ∀ x ∈ TERM_WEIGHTS, 0 ≤ x.2 := by with_unfolding_all decide
    exact hall p hmem

theorem indicatorCount_nonneg (q : List Char) : 0 ≤ indicatorCount q := by
  apply List.sum_nonneg
  intro x hx
  rcases List.mem_map.mp hx with ⟨t, _, rfl⟩
  split
  · exact termWeightOr_nonneg (by norm_num) t
  · exact le_refl 0

theorem phraseCount_nonneg (q : List Char) : 0 ≤ phraseCount q := by
  apply List.sum_nonneg
  intro x hx
  rcases List.mem_map.mp hx with ⟨t, _, rfl⟩
  split
  · exact termWeightOr_nonneg (by norm_num) t
  · exact le_refl 0

theorem topicBoost_nonneg (q : List Char) : 0 ≤ topicBoost q := by
  unfold topicBoost
  split
  · norm_num
  · exact le_refl 0

theorem totalIndicatorCount_nonneg (q : List Char) : 0 ≤ totalIndicatorCount q := by
  have h1 := indicatorCount_nonneg q
  have h2 := phraseCount_nonneg q
  have h3 := topicBoost_nonneg q
  unfold totalIndicatorCount
  linarith

theorem lengthScore_nonneg (q : List Char) : 0 ≤ lengthScore q :=
  le_min (div_nonneg (Nat.cast_nonneg _) (by norm_num)) zero_le_one

theorem lengthScore_le_one (q : List Char) : lengthScore q ≤ 1 := min_le_right _ _

theorem indicatorScore_nonneg (q : List Char) : 0 ≤ indicatorScore q :=
  le_min (div_nonneg (totalIndicatorCount_nonneg q) (by norm_num)) zero_le_one

theorem indicatorScore_le_one (q : List Char) : indicatorScore q ≤ 1 :=
  min_le_right _ _

theorem avgWordsPerSentence_nonneg (q : List Char) : 0 ≤ avgWordsPerSentence q :=
  div_nonneg (Nat.cast_nonneg _) (Nat.cast_nonneg _)

theorem sentenceScore_nonneg (q : List Char) : 0 ≤ sentenceScore q :=
  le_min (div_nonneg (avgWordsPerSentence_nonneg q) (by norm_num)) zero_le_one

theorem sentenceScore_le_one (q : List Char) : sentenceScore q ≤ 1 :=
  min_le_right _ _

theorem complexity_score_nonneg (query : List Char) : 0 ≤ complexity_score query := by
  have h1 := lengthScore_nonneg (lowerStr query)
  have h2 := indicatorScore_nonneg (lowerStr query)
  have h3 := sentenceScore_nonneg (lowerStr query)
  unfold complexity_score
  linarith

theorem complexity_score_le_one (query : List Char) : complexity_score query ≤ 1 := by
  have h1 := lengthScore_le_one (lowerStr query)
  have h2 := indicatorScore_le_one (lowerStr query)
  have h3 := sentenceScore_le_one (lowerStr query)
  unfold complexity_score
  linarith

/-! ### Substring lemmas -/

theorem isPrefB_append {t u : List Char} (z : List Char)
    (h : isPrefB t u = true) : isPrefB t (u ++ z) = true := by
  induction t generalizing u with
  | nil => rfl
  | cons a as ih =>
    cases u with
    | nil => cases h
    | cons b bs =>
      simp only [isPrefB, Bool.and_eq_true] at h
      simp only [List.cons_append, isPrefB, Bool.and_eq_true]
      exact ⟨h.1, ih h.2⟩

theorem isSubB_append_right {t s : List Char} (z : List Char)
    (h : isSubB t s = true) : isSubB t (s ++ z) = true := by
  induction s with
  | nil =>
    have ht : t = [] := by
      simpa [isSubB, List.isEmpty_iff] using h
    subst ht
    cases z with
    | nil => rfl
    | cons c cs => simp [isSubB, isPrefB]
  | cons c cs ih =>
    simp only [isSubB, Bool.or_eq_true] at h
    simp only [List.cons_append, isSubB, Bool.or_eq_true]
    rcases h with h | h
    · exact Or.inl (isPrefB_append z h)
    · exact Or.inr (ih h)

theorem isPrefB_refl (t : List Char) : isPrefB t t = true := by
  induction t with
  | nil => rfl
  | cons a as ih => simp [isPrefB, ih]

theorem isSubB_append_self (z t : List Char) : isSubB t (z ++ t) = true := by
  induction z with
  | nil =>
    cases t with
    | nil => rfl
    | cons c cs =>
      simp only [List.nil_append, isSubB, Bool.or_eq_true]
      exact Or.inl (isPrefB_refl _)
  | cons c z' ih =>
    simp only [List.cons_append, isSubB, Bool.or_eq_true]
    exact Or.inr ih

/-! ### Sum comparison lemmas -/

theorem sumMap_le {l : List (List Char)} {f g : List Char → ℚ}
    (h : ∀ u ∈ l, f u ≤ g u) : (l.map f).sum ≤ (l.map g).sum := by
  induction l with
  | nil => exact le_refl 0
  | cons u l' ih =>
    simp only [List.map_cons, List.sum_cons]
    exact add_le_add (h u (List.mem_cons_self _ _))
      (ih fun v hv => h v (List.mem_cons_of_mem _ hv))

theorem sumMap_le_add_three {l : List (List Char)} {f g : List Char → ℚ}
    {t : List Char} (ht : t ∈ l) (hfg : ∀ u ∈ l, f u ≤ g u)
    (hextra : f t + 3 ≤ g t) : (l.map f).sum + 3 ≤ (l.map g).sum := by
  induction l with
  | nil => cases ht
  | cons u l' ih =>
    simp only [List.map_cons, List.sum_cons]
    rcases List.mem_cons.mp ht with rfl | ht'
    · have h2 : (l'.map f).sum ≤ (l'.map g).sum :=
        sumMap_le fun v hv => hfg v (List.mem_cons_of_mem _ hv)
      linarith
    · have h1 : f u ≤ g u := hfg u (List.mem_cons_self _ _)
      have h2 := ih ht' fun v hv => hfg v (List.mem_cons_of_mem _ hv)
      linarith

theorem single_le_sumMap {l : List (List Char)} {f : List Char → ℚ}
    {t : List Char} (ht : t ∈ l) (hpos : ∀ u ∈ l, 0 ≤ f u) :
    f t ≤ (l.map f).sum := by
  induction l with
  | nil => cases ht
  | cons u l' ih =>
    simp only [List.map_cons, List.sum_cons]
    rcases List.mem_cons.mp ht with rfl | ht'
    · have h2 : 0 ≤ (l'.map f).sum :=
        List.sum_nonneg fun x hx => by
          rcases List.mem_map.mp hx with ⟨v, hv, rfl⟩
          exact hpos v (List.mem_cons_of_mem _ hv)
      linarith
    · have h1 : 0 ≤ f u := hpos u (List.mem_cons_self _ _)
      have h2 := ih ht' fun v hv => hpos v (List.mem_cons_of_mem _ hv)
      linarith

/-! ### Monotonicity of the weighted counts under appending text -/

theorem indicatorCount_mono (q z : List Char) :
    indicatorCount q ≤ indicatorCount (q ++ z) := by
  apply sumMap_le
  intro u _
  by_cases hsub : isSubB u q = true
  · rw [if_pos hsub, if_pos (isSubB_append_right z hsub)]
  · rw [if_neg hsub]
    split
    · exact termWeightOr_nonneg (by norm_num) u
    · exact le_refl 0

theorem phraseCount_mono (q z : List Char) :
    phraseCount q ≤ phraseCount (q ++ z) := by
  apply sumMap_le
  intro u _
  by_cases hsub : isSubB u q = true
  · rw [if_pos hsub, if_pos (isSubB_append_right z hsub)]
  · rw [if_neg hsub]
    split
    · exact termWeightOr_nonneg (by norm_num) u
    · exact le_refl 0

theorem topicBoost_mono (q z : List Char) : topicBoost q ≤ topicBoost (q ++ z) := by
  unfold topicBoost
  by_cases hcond : ((AI_TERMS.any fun t => isSubB t q) &&
      (ETHICS_TERMS.any fun t => isSubB t q)) = true
  · rw [if_pos hcond]
    have h2 : ((AI_TERMS.any fun t => isSubB t (q ++ z)) &&
        (ETHICS_TERMS.any fun t => isSubB t (q ++ z))) = true := by
      simp only [Bool.and_eq_true, List.any_eq_true] at hcond ⊢
      obtain ⟨⟨t1, ht1, hs1⟩, ⟨t2, ht2, hs2⟩⟩ := hcond
      exact ⟨⟨t1, ht1, isSubB_append_right z hs1⟩, ⟨t2, ht2, isSubB_append_right z hs2⟩⟩
    rw [if_pos h2]
  · rw [if_neg hcond]
    split
    · norm_num
    · exact le_refl 0

theorem totalCount_le_of_simple {query : List Char}
    (h : complexity_score query ≤ 3/10) :
    totalIndicatorCount (lowerStr query) ≤ 18/7 := by
  have h0 := lengthScore_nonneg (lowerStr query)
  have h1 := sentenceScore_nonneg (lowerStr query)
  have h2 : indicatorScore (lowerStr query) ≤ 3/7 := by
    unfold complexity_score at h
    linarith
  unfold indicatorScore at h2
  rcases min_cases (totalIndicatorCount (lowerStr query) / 6) 1 with ⟨heq, _⟩ | ⟨heq, _⟩
  · rw [heq] at h2
    linarith
  · rw [heq] at h2
    norm_num at h2

theorem count_ge_of_highweight_sub {L t : List Char}
    (hcase : (t ∈ COMPLEXITY_INDICATORS ∧ termWeightOr 1 t = 3) ∨
      (t ∈ COMPLEX_PHRASES ∧ termWeightOr 2 t = 3))
    (hsub : isSubB t L = true) : 3 ≤ totalIndicatorCount L := by
  have hp := phraseCount_nonneg L
  have hi := indicatorCount_nonneg L
  have hb := topicBoost_nonneg L
  unfold totalIndicatorCount
  rcases hcase with ⟨hmem, hw⟩ | ⟨hmem, hw⟩
  · have hpos : ∀ u ∈ COMPLEXITY_INDICATORS,
        0 ≤ (if isSubB u L = true then termWeightOr 1 u else 0) := by
      intro u _
      split
      · exact termWeightOr_nonneg (by norm_num) u
      · exact le_refl 0
    have h2 := single_le_sumMap hmem hpos
    rw [if_pos hsub, hw] at h2
    have h3 : (3:ℚ) ≤ indicatorCount L := h2
    linarith
  · have hpos : ∀ u ∈ COMPLEX_PHRASES,
        0 ≤ (if isSubB u L = true then termWeightOr 2 u else 0) := by
      intro u _
      split
      · exact termWeightOr_nonneg (by norm_num) u
      · exact le_refl 0
    have h2 := single_le_sumMap hmem hpos
    rw [if_pos hsub, hw] at h2
    have h3 : (3:ℚ) ≤ phraseCount L := h2
    linarith

theorem lowerStr_append_term (q t : List Char) (hlow : lowerStr t = t) :
    lowerStr (q ++ ' ' :: t) = lowerStr q ++ ' ' :: t := by
  have hsp : toLowerChar ' ' = ' ' := by decide
  unfold lowerStr at hlow ⊢
  rw [List.map_append, List.map_cons, hsp, hlow]

theorem score_mono_of_highweight (q t : List Char) (hlow : lowerStr t = t)
    (hcase : (t ∈ COMPLEXITY_INDICATORS ∧ termWeightOr 1 t = 3) ∨
      (t ∈ COMPLEX_PHRASES ∧ termWeightOr 2 t = 3))
    (hsimple : complexity_score q ≤ 3/10) :
    complexity_score q ≤ complexity_score (q ++ ' ' :: t) := by
  have hL' := lowerStr_append_term q t hlow
  have htc := totalCount_le_of_simple hsimple
  have hnotsub : isSubB t (lowerStr q) = false := by
    cases hx : isSubB t (lowerStr q) with
    | false => rfl
    | true =>
      exfalso
      have h3 := count_ge_of_highweight_sub hcase hx
      linarith
  have hsub' : isSubB t (lowerStr q ++ ' ' :: t) = true := by
    have hassoc : lowerStr q ++ ' ' :: t = (lowerStr q ++ [' ']) ++ t := by
      rw [List.append_assoc]
      rfl
    rw [hassoc]
    exact isSubB_append_self _ _
  have hcount : totalIndicatorCount (lowerStr q) + 3 ≤
      totalIndicatorCount (lowerStr q ++ ' ' :: t) := by
    have hph := phraseCount_mono (lowerStr q) (' ' :: t)
    have hic := indicatorCount_mono (lowerStr q) (' ' :: t)
    have hbo := topicBoost_mono (lowerStr q) (' ' :: t)
    unfold totalIndicatorCount
    rcases hcase with ⟨hmem, hw⟩ | ⟨hmem, hw⟩
    · have hind : indicatorCount (lowerStr q) + 3 ≤
          indicatorCount (lowerStr q ++ ' ' :: t) := by
        unfold indicatorCount
        apply sumMap_le_add_three hmem
        · intro u _
          by_cases hs : isSubB u (lowerStr q) = true
          · rw [if_pos hs, if_pos (isSubB_append_right _ hs)]
          · rw [if_neg hs]
            split
            · exact termWeightOr_nonneg (by norm_num) u
            · exact le_refl 0
        · rw [if_neg (by rw [hnotsub]; exact Bool.false_ne_true), if_pos hsub', hw]
          norm_num
      linarith
    · have hphr : phraseCount (lowerStr q) + 3 ≤
          phraseCount (lowerStr q ++ ' ' :: t) := by
        unfold phraseCount
        apply sumMap_le_add_three hmem
        · intro u _
          by_cases hs : isSubB u (lowerStr q) = true
          · rw [if_pos hs, if_pos (isSubB_append_right _ hs)]
          · rw [if_neg hs]
            split
            · exact termWeightOr_nonneg (by norm_num) u
            · exact le_refl 0
        · rw [if_neg (by rw [hnotsub]; exact Bool.false_ne_true), if_pos hsub', hw]
          norm_num
      linarith
  have htc' := totalIndicatorCount_nonneg (lowerStr q)
  have hisL : indicatorScore (lowerStr q) = totalIndicatorCount (lowerStr q) / 6 := by
    unfold indicatorScore
    rw [min_eq_left]
    linarith
  have his' : (totalIndicatorCount (lowerStr q) + 3) / 6 ≤
      indicatorScore (lowerStr q ++ ' ' :: t) := by
    unfold indicatorScore
    apply le_min
    · linarith
    · linarith
  have hls : lengthScore (lowerStr q) ≤ lengthScore (lowerStr q ++ ' ' :: t) := by
    have hlen : ((lowerStr q).length : ℚ) ≤ ((lowerStr q ++ ' ' :: t).length : ℚ) := by
      have hn : (lowerStr q).length ≤ (lowerStr q ++ ' ' :: t).length := by
        rw [List.length_append]
        omega
      exact_mod_cast hn
    unfold lengthScore
    exact min_le_min (by linarith) (le_refl 1)
  have hss1 : sentenceScore (lowerStr q) ≤ 1 := sentenceScore_le_one _
  have hss0 : 0 ≤ sentenceScore (lowerStr q ++ ' ' :: t) := sentenceScore_nonneg _
  have hfin : indicatorScore (lowerStr q) + 1/2 ≤
      indicatorScore (lowerStr q ++ ' ' :: t) := by
    rw [hisL]
    linarith
  unfold complexity_score
  rw [hL']
  linarith

/-- Helper shared by the C4 theorems: the value returned by
assess_complexity does not determine the matched-indicator list — two
queries with identical return values have different matched indicators. -/
theorem assess_no_indicator_component :
    ¬ ∃ f : Bool × ℚ → List (List Char × ℚ),
      ∀ query : List Char, f (assess_complexity query) = matchedIndicators query := by
  rintro ⟨f, hf⟩
  have heq : assess_complexity ("prove".toList) = assess_complexity ("infer".toList) := by
    with_unfolding_all decide
  have h1 := hf ("prove".toList)
  have h2 := hf ("infer".toList)
  rw [heq] at h1
  have h3 : matchedIndicators ("prove".toList) = matchedIndicators ("infer".toList) :=
    h1.symm.trans h2
  exact absurd h3 (by with_unfolding_all decide)

/-- C1: assess_complexity computes complexityScore as the stated weighted
sum of the three component scores, each component is in [0,1] and so is
the resulting score, and isComplex is true exactly when the score exceeds
0.30.  Determinism across repeated calls is inherent: assess_complexity
is a pure function of its argument. -/
theorem claim_C1_assess_complexity (query : List Char) :
    assess_complexity query =
      (decide (3/10 < complexity_score query), complexity_score query) ∧
    complexity_score query =
      1/5 * lengthScore (lowerStr query) + 7/10 * indicatorScore (lowerStr query)
        + 1/10 * sentenceScore (lowerStr query) ∧
    (0 ≤ lengthScore (lowerStr query) ∧ lengthScore (lowerStr query) ≤ 1) ∧
    (0 ≤ indicatorScore (lowerStr query) ∧ indicatorScore (lowerStr query) ≤ 1) ∧
    (0 ≤ sentenceScore (lowerStr query) ∧ sentenceScore (lowerStr query) ≤ 1) ∧
    (0 ≤ complexity_score query ∧ complexity_score query ≤ 1) ∧
    ((assess_complexity query).1 = true ↔ 3/10 < complexity_score query) := by
  refine ⟨rfl, rfl, ⟨lengthScore_nonneg _, lengthScore_le_one _⟩,
    ⟨indicatorScore_nonneg _, indicatorScore_le_one _⟩,
    ⟨sentenceScore_nonneg _, sentenceScore_le_one _⟩,
    ⟨complexity_score_nonneg _, complexity_score_le_one _⟩, ?_⟩
  simp [assess_complexity]

/-- C4 counterexample: the claim says assess returns the ordered
matched-indicator list in addition to the pair; the source returns only
(is_complex, score), and that value cannot even determine the matched
indicators: the queries "prove" and "infer" produce identical return
values but different matched-indicator lists. -/
theorem claim_C4_counterexample :
    ¬ ∃ f : Bool × ℚ → List (List Char × ℚ),
      ∀ query : List Char, f (assess_complexity query) = matchedIndicators query :=
  assess_no_indicator_component

/-- C4 (amended): assess_complexity returns only the pair
(isComplex, score); the ordered matched-indicator list is not part of the
return value, nor recoverable from it. -/
theorem claim_C4_amended :
    (∀ query : List Char, assess_complexity query =
      (decide (3/10 < complexity_score query), complexity_score query)) ∧
    ¬ ∃ f : Bool × ℚ → List (List Char × ℚ),
      ∀ query : List Char, f (assess_complexity query) = matchedIndicators query :=
  ⟨fun _ => rfl, assess_no_indicator_component⟩

/-- C7: appending a recognized weight-3.0 indicator term to a query whose
score is at or below the 0.30 threshold does not decrease the score. -/
theorem claim_C7_monotonicity (q t : List Char) (ht : t ∈ HIGH_WEIGHT_TERMS)
    (hsimple : complexity_score q ≤ 3/10) :
    complexity_score q ≤ complexity_score (q ++ ' ' :: t) := by
  have hcase : lowerStr t = t ∧
      ((t ∈ COMPLEXITY_INDICATORS ∧ termWeightOr 1 t = 3) ∨
        (t ∈ COMPLEX_PHRASES ∧ termWeightOr 2 t = 3)) := by
    simp only [HIGH_WEIGHT_TERMS, List.map_cons, List.map_nil, List.mem_cons,
      List.not_mem_nil, or_false] at ht
    rcases ht with rfl | rfl | rfl | rfl | rfl | rfl | rfl | rfl | rfl | rfl <;>
      refine ⟨by decide, ?_⟩ <;>
      first
        | exact Or.inl ⟨by decide, by with_unfolding_all decide⟩
        | exact Or.inr ⟨by decide, by with_unfolding_all decide⟩
  exact score_mono_of_highweight q t hcase.1 hcase.2 hsimple

/-- Witness for C7: the simple query "hi" and the term "ethical". -/
theorem claim_C7_monotonicity_witness :
    ("ethical".toList ∈ HIGH_WEIGHT_TERMS) ∧
    complexity_score "hi".toList ≤ 3/10 ∧
    complexity_score "hi".toList ≤
      complexity_score ("hi".toList ++ ' ' :: "ethical".toList) :=
  ⟨by decide, by with_unfolding_all decide,
    claim_C7_monotonicity _ _ (by decide) (by with_unfolding_all decide)⟩

/-- C5: TextNormalizer.optimize is idempotent: for every string x,
optimize(optimize(x)) = optimize(x). -/
theorem claim_C5_optimize_idempotent (x : List Char) :
    optimize_prompt (optimize_prompt x) = optimize_prompt x :=
  optimize_prompt_fixed (optimize_allWsSpace x) (optimize_noAdjWs x)
    (optimize_headNotWs x) (optimize_lastNotWs x) (optimize_dot_runs x)
    (optimize_bang_runs x) (optimize_qmark_runs x)

/-- C6: on the exact input from the spec scenario, the trailing run of
question marks and the trailing run of bangs are each collapsed
independently, yielding exactly the spec's expected output. -/
theorem claim_C6_optimize_scenario :
    optimize_prompt ("What is embeddings???????? And how do they work??????!!!!".toList)
      = ("What is embeddings? And how do they work?!".toList) := by
  decide

/-- C10: optimize does not always shrink its input: a run of exactly two
dots is expanded to three, so the output on ".." is "..." and is strictly
longer than the input. -/
theorem claim_C10_optimize_grows :
    optimize_prompt "..".toList = "...".toList ∧
    ("..".toList).length < (optimize_prompt "..".toList).length := by
  decide

/-- C2: when the pipeline invocation raises after yielding a prefix of
events, the orchestrator's output is exactly the processed prefix
followed by exactly one Error event carrying the human-readable message,
and nothing after it: the error event is the final element, and the
prefix itself contains no error events. -/
theorem claim_C2_error_terminates_stream (evs : List RawEvent) (e : String) :
    ask_question_events evs (some e) =
      evs.filterMap processEvent ++ [StreamEvent.error (errorMessage e)] ∧
    ((evs.filterMap processEvent).all fun ev => !isErrorEvent ev) = true := by
  constructor
  · induction evs with
    | nil => rfl
    | cons ev rest ih =>
      cases ev <;> simp [ask_question_events, processEvent, ih]
  · rw [List.all_eq_true]
    intro ev hev
    rcases List.mem_filterMap.mp hev with ⟨raw, _, hraw⟩
    cases raw <;> simp [processEvent] at hraw <;> rw [← hraw] <;> rfl

/-- C3: update_chain_llm never mutates its input (it is a pure
construction in this embedding, as in the source, which only reads the
input chain) and returns either the original pipeline itself or a new
pipeline wired to the identical retrieval-stage reference — never a
different or duplicated retrieval stage. -/
theorem claim_C3_update_chain_llm (chain : Chain) (llm : Nat)
    (hwf : WfChain chain) :
    update_chain_llm chain llm = chain ∨
    retrievalRefOf (update_chain_llm chain llm) = retrievalRefOf chain := by
  cases chain with
  | withHistory inner =>
    obtain ⟨hr, hf⟩ := hwf
    unfold update_chain_llm
    cases hra : inner.retrieverAttr with
    | some r =>
      right
      have hrc : r = inner.compRetriever := hr r (by rw [hra]; rfl)
      simp [retrievalRefOf, mkInner, hra, Option.orElse, hrc]
    | none =>
      cases hfa : inner.firstRetrieverAttr with
      | none => left; simp [hra, hfa, Option.orElse]
      | some r =>
        right
        have : r = inner.compRetriever := hf r (by rw [hfa]; rfl)
        simp [retrievalRefOf, mkInner, hra, hfa, Option.orElse, this]
  | plain rAttr comp lm =>
    unfold update_chain_llm
    cases hra : rAttr with
    | none => left; rfl
    | some r =>
      right
      have : r = comp := hwf r (by rw [hra]; rfl)
      simp [retrievalRefOf, mkInner, this]

/-- Witness for C3: a well-formed history-wrapped chain whose probe finds
retriever 5; rebinding to model 2 keeps retrieval reference 5. -/
theorem claim_C3_update_chain_llm_witness :
    WfChain (Chain.withHistory ⟨some 5, none, 5, 1⟩) ∧
    (update_chain_llm (Chain.withHistory ⟨some 5, none, 5, 1⟩) 2 =
        Chain.withHistory ⟨some 5, none, 5, 1⟩ ∨
      retrievalRefOf (update_chain_llm (Chain.withHistory ⟨some 5, none, 5, 1⟩) 2) =
        retrievalRefOf (Chain.withHistory ⟨some 5, none, 5, 1⟩)) := by
  constructor
  · constructor
    · intro r hr
      simp at hr
      subst hr
      rfl
    · intro r hr
      simp at hr
  · exact claim_C3_update_chain_llm _ 2
      ⟨fun r hr => by simp at hr; subst hr; rfl, fun r hr => by simp at hr⟩

/-- C8: with routing enabled, when the routing step raises, the
orchestrator recovers locally: the chain invoked in the streaming step is
identity-equal to the chain passed into the turn, and the turn proceeds
to streaming exactly as it would with the original chain — the routing
failure never aborts the turn. -/
theorem claim_C8_routing_failure_falls_back (chain : Chain) (e : String)
    (stream : Chain → List RawEvent × Option String) :
    routed_chain true (Except.error e) chain = chain ∧
    ask_question_turn true (Except.error e) chain stream =
      ask_question_events (stream chain).1 (stream chain).2 := by
  constructor
  · rfl
  · rfl

end Ragbase
